import Mathlib

/-!
Shallow embedding of the transactions-processor ledger core (src/main.rs).

The Rust `HashMap`s are modelled as association lists with first-occurrence
lookup (`alistGet`) and first-occurrence in-place value replacement
(`alistSet`), which mirrors `HashMap::get_mut` followed by mutation; new
entries are appended, mirroring `HashMap::insert` of a fresh key.
`rust_decimal::Decimal` (exact decimal arithmetic) is modelled by `Rat`.
Each `process_*` function returns the resulting ledger together with the
`Result` of the Rust function: `Except.ok ()` for `Ok(())`, `Except.error`
with the (static part of the) message for `bail!`.
-/

set_option autoImplicit false

abbrev ClId := Nat
abbrev TxId := Nat

/-- `StoredDeposit` from src/main.rs: the originally deposited amount and
the dispute flag. -/
structure StoredDeposit where
  amount : Rat
  under_dispute : Bool
deriving DecidableEq

abbrev DepositMap := List (TxId × StoredDeposit)

/-- `ClientState` from src/main.rs. -/
structure ClientState where
  deposits : DepositMap
  available : Rat
  held : Rat
  locked : Bool
deriving DecidableEq

/-- `ClientState::default()`: empty deposit map, zero balances, unlocked. -/
def ClientState.default : ClientState :=
  { deposits := [], available := 0, held := 0, locked := false }

abbrev Ledger := List (ClId × ClientState)

/-- First-occurrence lookup in an association list (`HashMap::get`). -/
def alistGet {β : Type} : List (Nat × β) → Nat → Option β
  | [], _ => none
  | (k, v) :: rest, key => if k = key then some v else alistGet rest key

/-- Replace the value at the first occurrence of a key (`HashMap::get_mut`
followed by assignment); identity when the key is absent. -/
def alistSet {β : Type} : List (Nat × β) → Nat → β → List (Nat × β)
  | [], _, _ => []
  | (k, v) :: rest, key, w =>
      if k = key then (k, w) :: rest else (k, v) :: alistSet rest key w

/-- The `Transaction` enum from src/main.rs. `Withdrawal` carries no tx id,
exactly as in the source. -/
inductive Transaction where
  | deposit (client : ClId) (tx : TxId) (amount : Rat)
  | withdrawal (client : ClId) (amount : Rat)
  | dispute (client : ClId) (tx : TxId)
  | resolve (client : ClId) (tx : TxId)
  | chargeback (client : ClId) (tx : TxId)
deriving DecidableEq

/-- The client a transaction refers to. -/
def Transaction.client : Transaction → ClId
  | Transaction.deposit c _ _ => c
  | Transaction.withdrawal c _ => c
  | Transaction.dispute c _ => c
  | Transaction.resolve c _ => c
  | Transaction.chargeback c _ => c

/-- `process_deposit` from src/main.rs: on an existing account reject when
locked or when the tx id is already present, otherwise credit `available`
and insert the stored deposit; on an unseen client insert a default account
and then apply the same mutation. -/
def process_deposit (ledger : Ledger) (client : ClId) (tx : TxId) (amount : Rat) :
    Ledger × Except String Unit :=
  match alistGet ledger client with
  | some cs =>
      if cs.locked then
        (ledger, Except.error "deposit for locked account")
      else if (alistGet cs.deposits tx).isSome then
        (ledger, Except.error "duplicate transaction")
      else
        (alistSet ledger client
          { cs with
              available := cs.available + amount,
              deposits := cs.deposits ++ [(tx, { amount := amount, under_dispute := false })] },
         Except.ok ())
  | none =>
      (ledger ++ [(client,
        { ClientState.default with
            available := ClientState.default.available + amount,
            deposits := ClientState.default.deposits
              ++ [(tx, { amount := amount, under_dispute := false })] })],
       Except.ok ())

/-- `process_withdrawal` from src/main.rs. -/
def process_withdrawal (ledger : Ledger) (client : ClId) (amount : Rat) :
    Ledger × Except String Unit :=
  match alistGet ledger client with
  | none => (ledger, Except.error "withdrawal for non existing account")
  | some cs =>
      if cs.locked then
        (ledger, Except.error "withdrawal for locked account")
      else if cs.available < amount then
        (ledger, Except.error "insufficient funds")
      else
        (alistSet ledger client { cs with available := cs.available - amount },
         Except.ok ())

/-- `process_dispute` from src/main.rs. -/
def process_dispute (ledger : Ledger) (client : ClId) (tx : TxId) :
    Ledger × Except String Unit :=
  match alistGet ledger client with
  | none => (ledger, Except.error "dispute for non existing account")
  | some cs =>
      if cs.locked then
        (ledger, Except.error "dispute for locked account")
      else
        match alistGet cs.deposits tx with
        | none => (ledger, Except.error "dispute for non existing transaction")
        | some d =>
            if d.under_dispute then
              (ledger, Except.error "transaction already under dispute")
            else
              (alistSet ledger client
                { cs with
                    deposits := alistSet cs.deposits tx { d with under_dispute := true },
                    held := cs.held + d.amount,
                    available := cs.available - d.amount },
               Except.ok ())

/-- `process_resolve` from src/main.rs. -/
def process_resolve (ledger : Ledger) (client : ClId) (tx : TxId) :
    Ledger × Except String Unit :=
  match alistGet ledger client with
  | none => (ledger, Except.error "resolve for non existing account")
  | some cs =>
      if cs.locked then
        (ledger, Except.error "resolve for locked account")
      else
        match alistGet cs.deposits tx with
        | none => (ledger, Except.error "resolve for non existing transaction")
        | some d =>
            if !d.under_dispute then
              (ledger, Except.error "resolve for transaction not under dispute")
            else
              (alistSet ledger client
                { cs with
                    deposits := alistSet cs.deposits tx { d with under_dispute := false },
                    held := cs.held - d.amount,
                    available := cs.available + d.amount },
               Except.ok ())

/-- `process_chargeback` from src/main.rs: clears the dispute flag, debits
`held`, locks the account; `available` is not touched. -/
def process_chargeback (ledger : Ledger) (client : ClId) (tx : TxId) :
    Ledger × Except String Unit :=
  match alistGet ledger client with
  | none => (ledger, Except.error "chargeback for non existing account")
  | some cs =>
      if cs.locked then
        (ledger, Except.error "chargeback for locked account")
      else
        match alistGet cs.deposits tx with
        | none => (ledger, Except.error "chargeback for non existing transaction")
        | some d =>
            if !d.under_dispute then
              (ledger, Except.error "chargeback for transaction not under dispute")
            else
              (alistSet ledger client
                { cs with
                    deposits := alistSet cs.deposits tx { d with under_dispute := false },
                    held := cs.held - d.amount,
                    locked := true },
               Except.ok ())

/-- `process_transaction` from src/main.rs: dispatch on the variant. -/
def process_transaction (ledger : Ledger) (t : Transaction) : Ledger × Except String Unit :=
  match t with
  | Transaction.deposit client tx amount => process_deposit ledger client tx amount
  | Transaction.withdrawal client amount => process_withdrawal ledger client amount
  | Transaction.dispute client tx => process_dispute ledger client tx
  | Transaction.resolve client tx => process_resolve ledger client tx
  | Transaction.chargeback client tx => process_chargeback ledger client tx

/-- The driver loop of `main`: apply each transaction in order, keeping the
ledger and discarding rejections (they are only logged). -/
def processAll (txs : List Transaction) (ledger : Ledger) : Ledger :=
  match txs with
  | [] => ledger
  | t :: rest => processAll rest (process_transaction ledger t).1

/-- The `TransactionType` enum of the input records. -/
inductive TransactionType where
  | deposit
  | withdrawal
  | dispute
  | resolve
  | chargeback
deriving DecidableEq

/-- A decoded CSV record (`TransactionRecord` in src/main.rs); the amount
column may be absent. -/
structure TransactionRecord where
  tx_type : TransactionType
  client : ClId
  tx : TxId
  amount : Option Rat
deriving DecidableEq

/-- `TransactionRecord::validated_amount`: reject a missing or negative
amount. -/
def validated_amount (r : TransactionRecord) : Except String Rat :=
  match r.amount with
  | none => Except.error "missing amount"
  | some a =>
      if a < 0 then Except.error "negative amount not allowed"
      else Except.ok a

/-- `Transaction::try_from(&TransactionRecord)`: the decoder step that turns
a raw record into a `Transaction`, validating the amount for deposits and
withdrawals. -/
def Transaction.try_from (r : TransactionRecord) : Except String Transaction :=
  match r.tx_type with
  | TransactionType.deposit =>
      match validated_amount r with
      | Except.error e => Except.error e
      | Except.ok amount => Except.ok (Transaction.deposit r.client r.tx amount)
  | TransactionType.withdrawal =>
      match validated_amount r with
      | Except.error e => Except.error e
      | Except.ok amount => Except.ok (Transaction.withdrawal r.client amount)
  | TransactionType.dispute => Except.ok (Transaction.dispute r.client r.tx)
  | TransactionType.resolve => Except.ok (Transaction.resolve r.client r.tx)
  | TransactionType.chargeback => Except.ok (Transaction.chargeback r.client r.tx)

/-- The amount constraint the decoder guarantees: deposits and withdrawals
carry a nonnegative amount. -/
def Transaction.nonnegAmount : Transaction → Prop
  | Transaction.deposit _ _ a => 0 ≤ a
  | Transaction.withdrawal _ a => 0 ≤ a
  | _ => True

instance : (t : Transaction) → Decidable t.nonnegAmount
  | Transaction.deposit _ _ a => inferInstanceAs (Decidable (0 ≤ a))
  | Transaction.withdrawal _ a => inferInstanceAs (Decidable (0 ≤ a))
  | Transaction.dispute _ _ => inferInstanceAs (Decidable True)
  | Transaction.resolve _ _ => inferInstanceAs (Decidable True)
  | Transaction.chargeback _ _ => inferInstanceAs (Decidable True)

/-- Sum of the amounts of the stored deposits currently under dispute. -/
def heldSum : DepositMap → Rat
  | [] => 0
  | (_, d) :: rest => (if d.under_dispute then d.amount else 0) + heldSum rest

/-- The clients that have an account (the output rows of `main`). -/
def ledgerClients (l : Ledger) : List ClId := l.map Prod.fst

/-- Invariant: each account's `held` is the sum of its disputed deposits. -/
abbrev HeldInv (l : Ledger) : Prop :=
  ∀ p ∈ l, p.2.held = heldSum p.2.deposits

/-- Invariant: all stored deposit amounts are nonnegative. -/
abbrev AmtInv (l : Ledger) : Prop :=
  ∀ p ∈ l, ∀ q ∈ p.2.deposits, 0 ≤ q.2.amount

section AlistLemmas

variable {β : Type}

theorem alistGet_set_self {m : List (Nat × β)} {k : Nat} {v : β} (w : β)
    (h : alistGet m k = some v) : alistGet (alistSet m k w) k = some w := by
  induction m with
  | nil => simp [alistGet] at h
  | cons p rest ih =>
      obtain ⟨pk, pv⟩ := p
      by_cases hk : pk = k
      · simp [alistGet, alistSet, hk]
      · simp [alistGet, alistSet, hk] at h ⊢
        exact ih h

theorem alistGet_set_ne {m : List (Nat × β)} {k k' : Nat} (w : β) (h : k ≠ k') :
    alistGet (alistSet m k' w) k = alistGet m k := by
  induction m with
  | nil => simp [alistSet]
  | cons p rest ih =>
      obtain ⟨pk, pv⟩ := p
      by_cases hk : pk = k'
      · subst hk
        simp [alistGet, alistSet, Ne.symm h]
      · by_cases hk2 : pk = k <;> simp [alistGet, alistSet, hk, hk2, h, ih]

theorem alistSet_set {m : List (Nat × β)} {k : Nat} (v w : β) :
    alistSet (alistSet m k v) k w = alistSet m k w := by
  induction m with
  | nil => simp [alistSet]
  | cons p rest ih =>
      obtain ⟨pk, pv⟩ := p
      by_cases hk : pk = k <;> simp [alistSet, hk, ih]

theorem alistSet_get_self {m : List (Nat × β)} {k : Nat} {v : β}
    (h : alistGet m k = some v) : alistSet m k v = m := by
  induction m with
  | nil => simp [alistSet]
  | cons p rest ih =>
      obtain ⟨pk, pv⟩ := p
      by_cases hk : pk = k
      · simp [alistGet, hk] at h
        simp [alistSet, hk, h]
      · simp [alistGet, hk] at h
        simp [alistSet, hk, ih h]

theorem alistGet_append_left {m m' : List (Nat × β)} {k : Nat} {v : β}
    (h : alistGet m k = some v) : alistGet (m ++ m') k = some v := by
  induction m with
  | nil => simp [alistGet] at h
  | cons p rest ih =>
      obtain ⟨pk, pv⟩ := p
      by_cases hk : pk = k <;> simp [alistGet, hk] at h ⊢
      · exact h
      · exact ih h

theorem alistGet_append_of_none {m m' : List (Nat × β)} {k : Nat}
    (h : alistGet m k = none) : alistGet (m ++ m') k = alistGet m' k := by
  induction m with
  | nil => simp
  | cons p rest ih =>
      obtain ⟨pk, pv⟩ := p
      by_cases hk : pk = k <;> simp [alistGet, hk] at h ⊢
      exact ih h

theorem map_fst_alistSet (m : List (Nat × β)) (k : Nat) (w : β) :
    (alistSet m k w).map Prod.fst = m.map Prod.fst := by
  induction m with
  | nil => simp [alistSet]
  | cons p rest ih =>
      obtain ⟨pk, pv⟩ := p
      by_cases hk : pk = k <;> simp [alistSet, hk, ih]

theorem mem_alistSet {m : List (Nat × β)} {k : Nat} {w : β} {q : Nat × β}
    (h : q ∈ alistSet m k w) : q ∈ m ∨ q = (k, w) := by
  induction m with
  | nil => simp [alistSet] at h
  | cons p rest ih =>
      obtain ⟨pk, pv⟩ := p
      by_cases hk : pk = k
      · subst hk
        simp [alistSet] at h
        rcases h with h | h
        · right; simp [h]
        · left; simp [h]
      · simp [alistSet, hk] at h
        rcases h with h | h
        · left; simp [h]
        · rcases ih h with h2 | h2
          · left; simp [h2]
          · right; exact h2

theorem alistGet_mem {m : List (Nat × β)} {k : Nat} {v : β}
    (h : alistGet m k = some v) : (k, v) ∈ m := by
  induction m with
  | nil => simp [alistGet] at h
  | cons p rest ih =>
      obtain ⟨pk, pv⟩ := p
      by_cases hk : pk = k
      · subst hk
        simp [alistGet] at h
        simp [h]
      · simp [alistGet, hk] at h
        simp [ih h]

theorem alistGet_eq_none_iff {m : List (Nat × β)} {k : Nat} :
    alistGet m k = none ↔ k ∉ m.map Prod.fst := by
  induction m with
  | nil => simp [alistGet]
  | cons p rest ih =>
      obtain ⟨pk, pv⟩ := p
      by_cases hk : pk = k
      · subst hk
        simp [alistGet]
      · simp [alistGet, hk, ih, Ne.symm hk]

end AlistLemmas

theorem heldSum_append (m m' : DepositMap) :
    heldSum (m ++ m') = heldSum m + heldSum m' := by
  induction m with
  | nil => simp [heldSum]
  | cons p rest ih => simp [heldSum, ih]; ring

theorem heldSum_set {m : DepositMap} {k : TxId} {d : StoredDeposit} (w : StoredDeposit)
    (h : alistGet m k = some d) :
    heldSum (alistSet m k w)
      = heldSum m - (if d.under_dispute then d.amount else 0)
        + (if w.under_dispute then w.amount else 0) := by
  induction m with
  | nil => simp [alistGet] at h
  | cons p rest ih =>
      obtain ⟨pk, pv⟩ := p
      by_cases hk : pk = k
      · subst hk
        simp [alistGet] at h
        subst h
        simp [alistSet, heldSum]
        ring
      · simp [alistGet, hk] at h
        simp [alistSet, heldSum, hk, ih h]
        ring

theorem heldSum_nonneg {m : DepositMap} (h : ∀ q ∈ m, 0 ≤ q.2.amount) :
    0 ≤ heldSum m := by
  induction m with
  | nil => simp [heldSum]
  | cons p rest ih =>
      simp only [heldSum]
      have h1 : 0 ≤ p.2.amount := h p (by simp)
      have h2 : 0 ≤ heldSum rest := ih (fun q hq => h q (by simp [hq]))
      split <;> linarith

theorem process_deposit_error {l : Ledger} {c : ClId} {tx : TxId} {a : Rat} {e : String}
    (h : (process_deposit l c tx a).2 = Except.error e) :
    (process_deposit l c tx a).1 = l := by
  unfold process_deposit at h ⊢
  cases hg : alistGet l c with
  | none => simp [hg] at h
  | some cs =>
      by_cases h1 : cs.locked
      · simp [hg, h1]
      · by_cases h2 : (alistGet cs.deposits tx).isSome <;> simp [hg, h1, h2] at h ⊢

theorem process_withdrawal_error {l : Ledger} {c : ClId} {a : Rat} {e : String}
    (h : (process_withdrawal l c a).2 = Except.error e) :
    (process_withdrawal l c a).1 = l := by
  unfold process_withdrawal at h ⊢
  cases hg : alistGet l c with
  | none => simp [hg]
  | some cs =>
      by_cases h1 : cs.locked
      · simp [hg, h1]
      · by_cases h2 : cs.available < a <;> simp [hg, h1, h2] at h ⊢

theorem process_dispute_error {l : Ledger} {c : ClId} {tx : TxId} {e : String}
    (h : (process_dispute l c tx).2 = Except.error e) :
    (process_dispute l c tx).1 = l := by
  unfold process_dispute at h ⊢
  cases hg : alistGet l c with
  | none => simp [hg]
  | some cs =>
      by_cases h1 : cs.locked
      · simp [hg, h1]
      · cases hd : alistGet cs.deposits tx with
        | none => simp [hg, h1, hd]
        | some d =>
            by_cases h2 : d.under_dispute <;> simp [hg, h1, hd, h2] at h ⊢

theorem process_resolve_error {l : Ledger} {c : ClId} {tx : TxId} {e : String}
    (h : (process_resolve l c tx).2 = Except.error e) :
    (process_resolve l c tx).1 = l := by
  unfold process_resolve at h ⊢
  cases hg : alistGet l c with
  | none => simp [hg]
  | some cs =>
      by_cases h1 : cs.locked
      · simp [hg, h1]
      · cases hd : alistGet cs.deposits tx with
        | none => simp [hg, h1, hd]
        | some d =>
            by_cases h2 : d.under_dispute <;> simp [hg, h1, hd, h2] at h ⊢

theorem process_chargeback_error {l : Ledger} {c : ClId} {tx : TxId} {e : String}
    (h : (process_chargeback l c tx).2 = Except.error e) :
    (process_chargeback l c tx).1 = l := by
  unfold process_chargeback at h ⊢
  cases hg : alistGet l c with
  | none => simp [hg]
  | some cs =>
      by_cases h1 : cs.locked
      · simp [hg, h1]
      · cases hd : alistGet cs.deposits tx with
        | none => simp [hg, h1, hd]
        | some d =>
            by_cases h2 : d.under_dispute <;> simp [hg, h1, hd, h2] at h ⊢

theorem process_transaction_error {l : Ledger} {t : Transaction} {e : String}
    (h : (process_transaction l t).2 = Except.error e) :
    (process_transaction l t).1 = l := by
  cases t with
  | deposit c tx a => exact process_deposit_error (l := l) h
  | withdrawal c a => exact process_withdrawal_error (l := l) h
  | dispute c tx => exact process_dispute_error (l := l) h
  | resolve c tx => exact process_resolve_error (l := l) h
  | chargeback c tx => exact process_chargeback_error (l := l) h

theorem heldInv_step (l : Ledger) (t : Transaction) (h : HeldInv l) :
    HeldInv (process_transaction l t).1 := by
  cases t with
  | deposit c tx a =>
      simp only [process_transaction]
      unfold process_deposit
      cases hg : alistGet l c with
      | none =>
          simp only [hg]
          intro p hp
          rcases List.mem_append.1 hp with hp | hp
          · exact h p hp
          · simp at hp
            simp [hp, ClientState.default, heldSum]
      | some cs =>
          by_cases h1 : cs.locked
          · simp [hg, h1]; exact fun a b hab => h (a, b) hab
          · by_cases h2 : (alistGet cs.deposits tx).isSome
            · simp [hg, h1, h2]; exact fun a b hab => h (a, b) hab
            · simp only [hg, h1, h2]
              simp only [Bool.false_eq_true, if_false, if_true]
              intro p hp
              rcases mem_alistSet hp with hp | hp
              · exact h p hp
              · have hcs : cs.held = heldSum cs.deposits := h (c, cs) (alistGet_mem hg)
                simp [hp, heldSum_append, heldSum]
                exact hcs
  | withdrawal c a =>
      simp only [process_transaction]
      unfold process_withdrawal
      cases hg : alistGet l c with
      | none => simp [hg]; exact fun a b hab => h (a, b) hab
      | some cs =>
          by_cases h1 : cs.locked
          · simp [hg, h1]; exact fun a b hab => h (a, b) hab
          · by_cases h2 : cs.available < a
            · simp [hg, h1, h2]; exact fun a b hab => h (a, b) hab
            · simp only [hg, h1, h2]
              simp only [Bool.false_eq_true, if_false, if_true]
              intro p hp
              rcases mem_alistSet hp with hp | hp
              · exact h p hp
              · have hcs : cs.held = heldSum cs.deposits := h (c, cs) (alistGet_mem hg)
                simp [hp]
                exact hcs
  | dispute c tx =>
      simp only [process_transaction]
      unfold process_dispute
      cases hg : alistGet l c with
      | none => simp [hg]; exact fun a b hab => h (a, b) hab
      | some cs =>
          by_cases h1 : cs.locked
          · simp [hg, h1]; exact fun a b hab => h (a, b) hab
          · cases hd : alistGet cs.deposits tx with
            | none => simp [hg, h1, hd]; exact fun a b hab => h (a, b) hab
            | some d =>
                by_cases h2 : d.under_dispute
                · simp [hg, h1, hd, h2]; exact fun a b hab => h (a, b) hab
                · simp only [hg, h1, hd, h2]
                  simp only [Bool.false_eq_true, if_false, if_true]
                  intro p hp
                  rcases mem_alistSet hp with hp | hp
                  · exact h p hp
                  · have hcs : cs.held = heldSum cs.deposits := h (c, cs) (alistGet_mem hg)
                    have hs := heldSum_set { d with under_dispute := true } hd
                    simp [h2] at hs
                    simp [hp, hs, hcs]
  | resolve c tx =>
      simp only [process_transaction]
      unfold process_resolve
      cases hg : alistGet l c with
      | none => simp [hg]; exact fun a b hab => h (a, b) hab
      | some cs =>
          by_cases h1 : cs.locked
          · simp [hg, h1]; exact fun a b hab => h (a, b) hab
          · cases hd : alistGet cs.deposits tx with
            | none => simp [hg, h1, hd]; exact fun a b hab => h (a, b) hab
            | some d =>
                by_cases h2 : d.under_dispute
                · simp only [hg, h1, hd, h2]
                  simp only [Bool.not_true, Bool.false_eq_true, if_false, if_true]
                  intro p hp
                  rcases mem_alistSet hp with hp | hp
                  · exact h p hp
                  · have hcs : cs.held = heldSum cs.deposits := h (c, cs) (alistGet_mem hg)
                    have hs := heldSum_set { d with under_dispute := false } hd
                    simp [h2] at hs
                    simp [hp, hs, hcs]
                · simp [hg, h1, hd, h2]; exact fun a b hab => h (a, b) hab
  | chargeback c tx =>
      simp only [process_transaction]
      unfold process_chargeback
      cases hg : alistGet l c with
      | none => simp [hg]; exact fun a b hab => h (a, b) hab
      | some cs =>
          by_cases h1 : cs.locked
          · simp [hg, h1]; exact fun a b hab => h (a, b) hab
          · cases hd : alistGet cs.deposits tx with
            | none => simp [hg, h1, hd]; exact fun a b hab => h (a, b) hab
            | some d =>
                by_cases h2 : d.under_dispute
                · simp only [hg, h1, hd, h2]
                  simp only [Bool.not_true, Bool.false_eq_true, if_false, if_true]
                  intro p hp
                  rcases mem_alistSet hp with hp | hp
                  · exact h p hp
                  · have hcs : cs.held = heldSum cs.deposits := h (c, cs) (alistGet_mem hg)
                    have hs := heldSum_set { d with under_dispute := false } hd
                    simp [h2] at hs
                    simp [hp, hs, hcs]
                · simp [hg, h1, hd, h2]; exact fun a b hab => h (a, b) hab

theorem heldInv_processAll (txs : List Transaction) (l : Ledger) (h : HeldInv l) :
    HeldInv (processAll txs l) := by
  induction txs generalizing l with
  | nil => exact h
  | cons t rest ih => exact ih _ (heldInv_step l t h)

theorem amtInv_step (l : Ledger) (t : Transaction) (h : AmtInv l) (ha : t.nonnegAmount) :
    AmtInv (process_transaction l t).1 := by
  cases t with
  | deposit c tx a =>
      simp only [Transaction.nonnegAmount] at ha
      simp only [process_transaction]
      unfold process_deposit
      cases hg : alistGet l c with
      | none =>
          simp only [hg]
          intro p hp q hq
          rcases List.mem_append.1 hp with hp | hp
          · exact h p hp q hq
          · simp at hp
            subst hp
            simp [ClientState.default] at hq
            simp [hq, ha]
      | some cs =>
          by_cases h1 : cs.locked
          · simpa [hg, h1] using h
          · by_cases h2 : (alistGet cs.deposits tx).isSome
            · simpa [hg, h1, h2] using h
            · simp only [hg, h1, h2]
              simp only [Bool.false_eq_true, if_false, if_true]
              intro p hp q hq
              rcases mem_alistSet hp with hp | hp
              · exact h p hp q hq
              · subst hp
                simp at hq
                rcases hq with hq | hq
                · exact h (c, cs) (alistGet_mem hg) q hq
                · simp [hq, ha]
  | withdrawal c a =>
      simp only [process_transaction]
      unfold process_withdrawal
      cases hg : alistGet l c with
      | none => simpa [hg] using h
      | some cs =>
          by_cases h1 : cs.locked
          · simpa [hg, h1] using h
          · by_cases h2 : cs.available < a
            · simpa [hg, h1, h2] using h
            · simp only [hg, h1, h2]
              simp only [Bool.false_eq_true, if_false, if_true]
              intro p hp q hq
              rcases mem_alistSet hp with hp | hp
              · exact h p hp q hq
              · subst hp
                simp at hq
                exact h (c, cs) (alistGet_mem hg) q hq
  | dispute c tx =>
      simp only [process_transaction]
      unfold process_dispute
      cases hg : alistGet l c with
      | none => simpa [hg] using h
      | some cs =>
          by_cases h1 : cs.locked
          · simpa [hg, h1] using h
          · cases hd : alistGet cs.deposits tx with
            | none => simpa [hg, h1, hd] using h
            | some d =>
                by_cases h2 : d.under_dispute
                · simpa [hg, h1, hd, h2] using h
                · simp only [hg, h1, hd, h2]
                  simp only [Bool.false_eq_true, if_false, if_true]
                  intro p hp q hq
                  rcases mem_alistSet hp with hp | hp
                  · exact h p hp q hq
                  · subst hp
                    simp at hq
                    rcases mem_alistSet hq with hq | hq
                    · exact h (c, cs) (alistGet_mem hg) q hq
                    · subst hq
                      simpa using h (c, cs) (alistGet_mem hg) (tx, d) (alistGet_mem hd)
  | resolve c tx =>
      simp only [process_transaction]
      unfold process_resolve
      cases hg : alistGet l c with
      | none => simpa [hg] using h
      | some cs =>
          by_cases h1 : cs.locked
          · simpa [hg, h1] using h
          · cases hd : alistGet cs.deposits tx with
            | none => simpa [hg, h1, hd] using h
            | some d =>
                by_cases h2 : d.under_dispute
                · simp only [hg, h1, hd, h2]
                  simp only [Bool.not_true, Bool.false_eq_true, if_false, if_true]
                  intro p hp q hq
                  rcases mem_alistSet hp with hp | hp
                  · exact h p hp q hq
                  · subst hp
                    simp at hq
                    rcases mem_alistSet hq with hq | hq
                    · exact h (c, cs) (alistGet_mem hg) q hq
                    · subst hq
                      simpa using h (c, cs) (alistGet_mem hg) (tx, d) (alistGet_mem hd)
                · simpa [hg, h1, hd, h2] using h
  | chargeback c tx =>
      simp only [process_transaction]
      unfold process_chargeback
      cases hg : alistGet l c with
      | none => simpa [hg] using h
      | some cs =>
          by_cases h1 : cs.locked
          · simpa [hg, h1] using h
          · cases hd : alistGet cs.deposits tx with
            | none => simpa [hg, h1, hd] using h
            | some d =>
                by_cases h2 : d.under_dispute
                · simp only [hg, h1, hd, h2]
                  simp only [Bool.not_true, Bool.false_eq_true, if_false, if_true]
                  intro p hp q hq
                  rcases mem_alistSet hp with hp | hp
                  · exact h p hp q hq
                  · subst hp
                    simp at hq
                    rcases mem_alistSet hq with hq | hq
                    · exact h (c, cs) (alistGet_mem hg) q hq
                    · subst hq
                      simpa using h (c, cs) (alistGet_mem hg) (tx, d) (alistGet_mem hd)
                · simpa [hg, h1, hd, h2] using h

theorem availNonneg_step (l : Ledger) (t : Transaction)
    (hAmt : AmtInv l) (hAv : ∀ p ∈ l, 0 ≤ p.2.available) (ha : t.nonnegAmount)
    (hnd : ∀ c tx, t ≠ Transaction.dispute c tx)
    (hok : (process_transaction l t).2 = Except.ok ()) :
    ∀ p ∈ (process_transaction l t).1, 0 ≤ p.2.available := by
  cases t with
  | deposit c tx a =>
      simp only [Transaction.nonnegAmount] at ha
      simp only [process_transaction]
      unfold process_deposit
      cases hg : alistGet l c with
      | none =>
          simp only [hg]
          intro p hp
          rcases List.mem_append.1 hp with hp | hp
          · exact hAv p hp
          · simp at hp
            subst hp
            simp [ClientState.default]
            exact ha
      | some cs =>
          by_cases h1 : cs.locked
          · simp only [process_transaction] at hok
            unfold process_deposit at hok
            simp [hg, h1] at hok
          · by_cases h2 : (alistGet cs.deposits tx).isSome
            · simp only [process_transaction] at hok
              unfold process_deposit at hok
              simp [hg, h1, h2] at hok
            · simp only [hg, h1, h2]
              simp only [Bool.false_eq_true, if_false, if_true]
              intro p hp
              rcases mem_alistSet hp with hp | hp
              · exact hAv p hp
              · subst hp
                have hcs : (0 : Rat) ≤ cs.available := hAv (c, cs) (alistGet_mem hg)
                simp
                linarith
  | withdrawal c a =>
      simp only [process_transaction] at hok ⊢
      unfold process_withdrawal at hok ⊢
      cases hg : alistGet l c with
      | none => simp [hg] at hok
      | some cs =>
          by_cases h1 : cs.locked
          · simp [hg, h1] at hok
          · by_cases h2 : cs.available < a
            · simp [hg, h1, h2] at hok
            · simp only [hg, h1, h2]
              simp only [Bool.false_eq_true, if_false, if_true]
              intro p hp
              rcases mem_alistSet hp with hp | hp
              · exact hAv p hp
              · subst hp
                simp
                push_neg at h2
                linarith
  | dispute c tx => exact absurd rfl (hnd c tx)
  | resolve c tx =>
      simp only [process_transaction] at hok ⊢
      unfold process_resolve at hok ⊢
      cases hg : alistGet l c with
      | none => simp [hg] at hok
      | some cs =>
          by_cases h1 : cs.locked
          · simp [hg, h1] at hok
          · cases hd : alistGet cs.deposits tx with
            | none => simp [hg, h1, hd] at hok
            | some d =>
                by_cases h2 : d.under_dispute
                · simp only [hg, h1, hd, h2]
                  simp only [Bool.not_true, Bool.false_eq_true, if_false, if_true]
                  intro p hp
                  rcases mem_alistSet hp with hp | hp
                  · exact hAv p hp
                  · subst hp
                    have hcs : (0 : Rat) ≤ cs.available := hAv (c, cs) (alistGet_mem hg)
                    have hda : (0 : Rat) ≤ d.amount :=
                      hAmt (c, cs) (alistGet_mem hg) (tx, d) (alistGet_mem hd)
                    simp
                    linarith
                · simp [hg, h1, hd, h2] at hok
  | chargeback c tx =>
      simp only [process_transaction] at hok ⊢
      unfold process_chargeback at hok ⊢
      cases hg : alistGet l c with
      | none => simp [hg] at hok
      | some cs =>
          by_cases h1 : cs.locked
          · simp [hg, h1] at hok
          · cases hd : alistGet cs.deposits tx with
            | none => simp [hg, h1, hd] at hok
            | some d =>
                by_cases h2 : d.under_dispute
                · simp only [hg, h1, hd, h2]
                  simp only [Bool.not_true, Bool.false_eq_true, if_false, if_true]
                  intro p hp
                  rcases mem_alistSet hp with hp | hp
                  · exact hAv p hp
                  · subst hp
                    simpa using hAv (c, cs) (alistGet_mem hg)
                · simp [hg, h1, hd, h2] at hok

theorem process_transaction_shape (l : Ledger) (t : Transaction) :
    (process_transaction l t).1 = l ∨
    (∃ cs', (process_transaction l t).1 = alistSet l (Transaction.client t) cs') ∨
    ((∃ tx a, t = Transaction.deposit (Transaction.client t) tx a) ∧
      alistGet l (Transaction.client t) = none ∧
      ∃ cs', (process_transaction l t).1 = l ++ [(Transaction.client t, cs')]) := by
  cases t with
  | deposit c tx a =>
      simp only [process_transaction, Transaction.client]
      unfold process_deposit
      cases hg : alistGet l c with
      | none =>
          exact Or.inr (Or.inr ⟨⟨tx, a, rfl⟩, rfl,
            ⟨{ ClientState.default with
                available := ClientState.default.available + a,
                deposits := ClientState.default.deposits
                  ++ [(tx, { amount := a, under_dispute := false })] }, by simp [hg]⟩⟩)
      | some cs =>
          by_cases h1 : cs.locked
          · exact Or.inl (by simp [hg, h1])
          · by_cases h2 : (alistGet cs.deposits tx).isSome
            · exact Or.inl (by simp [hg, h1, h2])
            · exact Or.inr (Or.inl ⟨{ cs with
                  available := cs.available + a,
                  deposits := cs.deposits ++ [(tx, { amount := a, under_dispute := false })] },
                by simp [hg, h1, h2]⟩)
  | withdrawal c a =>
      simp only [process_transaction, Transaction.client]
      unfold process_withdrawal
      cases hg : alistGet l c with
      | none => exact Or.inl (by simp [hg])
      | some cs =>
          by_cases h1 : cs.locked
          · exact Or.inl (by simp [hg, h1])
          · by_cases h2 : cs.available < a
            · exact Or.inl (by simp [hg, h1, h2])
            · exact Or.inr (Or.inl ⟨{ cs with available := cs.available - a },
                by simp [hg, h1, h2]⟩)
  | dispute c tx =>
      simp only [process_transaction, Transaction.client]
      unfold process_dispute
      cases hg : alistGet l c with
      | none => exact Or.inl (by simp [hg])
      | some cs =>
          by_cases h1 : cs.locked
          · exact Or.inl (by simp [hg, h1])
          · cases hd : alistGet cs.deposits tx with
            | none => exact Or.inl (by simp [hg, h1, hd])
            | some d =>
                by_cases h2 : d.under_dispute
                · exact Or.inl (by simp [hg, h1, hd, h2])
                · exact Or.inr (Or.inl ⟨{ cs with
                      deposits := alistSet cs.deposits tx { d with under_dispute := true },
                      held := cs.held + d.amount,
                      available := cs.available - d.amount },
                    by simp [hg, h1, hd, h2]⟩)
  | resolve c tx =>
      simp only [process_transaction, Transaction.client]
      unfold process_resolve
      cases hg : alistGet l c with
      | none => exact Or.inl (by simp [hg])
      | some cs =>
          by_cases h1 : cs.locked
          · exact Or.inl (by simp [hg, h1])
          · cases hd : alistGet cs.deposits tx with
            | none => exact Or.inl (by simp [hg, h1, hd])
            | some d =>
                by_cases h2 : d.under_dispute
                · exact Or.inr (Or.inl ⟨{ cs with
                      deposits := alistSet cs.deposits tx { d with under_dispute := false },
                      held := cs.held - d.amount,
                      available := cs.available + d.amount },
                    by simp [hg, h1, hd, h2]⟩)
                · exact Or.inl (by simp [hg, h1, hd, h2])
  | chargeback c tx =>
      simp only [process_transaction, Transaction.client]
      unfold process_chargeback
      cases hg : alistGet l c with
      | none => exact Or.inl (by simp [hg])
      | some cs =>
          by_cases h1 : cs.locked
          · exact Or.inl (by simp [hg, h1])
          · cases hd : alistGet cs.deposits tx with
            | none => exact Or.inl (by simp [hg, h1, hd])
            | some d =>
                by_cases h2 : d.under_dispute
                · exact Or.inr (Or.inl ⟨{ cs with
                      deposits := alistSet cs.deposits tx { d with under_dispute := false },
                      held := cs.held - d.amount,
                      locked := true },
                    by simp [hg, h1, hd, h2]⟩)
                · exact Or.inl (by simp [hg, h1, hd, h2])

theorem process_locked (l : Ledger) (t : Transaction) (cs : ClientState)
    (hc : alistGet l (Transaction.client t) = some cs) (hlock : cs.locked = true) :
    ∃ e, process_transaction l t = (l, Except.error e) := by
  cases t with
  | deposit c tx a =>
      simp only [Transaction.client] at hc
      exact ⟨"deposit for locked account", by
        simp only [process_transaction]
        unfold process_deposit
        simp [hc, hlock]⟩
  | withdrawal c a =>
      simp only [Transaction.client] at hc
      exact ⟨"withdrawal for locked account", by
        simp only [process_transaction]
        unfold process_withdrawal
        simp [hc, hlock]⟩
  | dispute c tx =>
      simp only [Transaction.client] at hc
      exact ⟨"dispute for locked account", by
        simp only [process_transaction]
        unfold process_dispute
        simp [hc, hlock]⟩
  | resolve c tx =>
      simp only [Transaction.client] at hc
      exact ⟨"resolve for locked account", by
        simp only [process_transaction]
        unfold process_resolve
        simp [hc, hlock]⟩
  | chargeback c tx =>
      simp only [Transaction.client] at hc
      exact ⟨"chargeback for locked account", by
        simp only [process_transaction]
        unfold process_chargeback
        simp [hc, hlock]⟩

theorem locked_client_step (l : Ledger) (c : ClId) (cs : ClientState) (t : Transaction)
    (hc : alistGet l c = some cs) (hlock : cs.locked = true) :
    alistGet (process_transaction l t).1 c = some cs := by
  by_cases hcl : Transaction.client t = c
  · obtain ⟨e, he⟩ := process_locked l t cs (hcl ▸ hc) hlock
    rw [he]
    exact hc
  · rcases process_transaction_shape l t with hs | ⟨cs', hs⟩ | ⟨_, _, cs', hs⟩
    · rw [hs]; exact hc
    · rw [hs, alistGet_set_ne cs' (fun h => hcl h.symm)]; exact hc
    · rw [hs]; exact alistGet_append_left hc

theorem locked_client_processAll (txs : List Transaction) (l : Ledger) (c : ClId)
    (cs : ClientState) (hc : alistGet l c = some cs) (hlock : cs.locked = true) :
    alistGet (processAll txs l) c = some cs := by
  induction txs generalizing l with
  | nil => exact hc
  | cons t rest ih => exact ih _ (locked_client_step l c cs t hc hlock)

theorem clients_eq_of_not_deposit (l : Ledger) (t : Transaction)
    (h : ∀ c tx a, t ≠ Transaction.deposit c tx a) :
    ledgerClients (process_transaction l t).1 = ledgerClients l := by
  rcases process_transaction_shape l t with hs | ⟨cs', hs⟩ | ⟨⟨tx, a, hdep⟩, _, _⟩
  · rw [hs]
  · rw [hs]
    exact map_fst_alistSet l (Transaction.client t) cs'
  · exact absurd hdep (h _ tx a)

theorem mem_clients_step (l : Ledger) (t : Transaction) (c : ClId) :
    c ∈ ledgerClients (process_transaction l t).1 ↔
      c ∈ ledgerClients l ∨ ∃ tx a, t = Transaction.deposit c tx a := by
  cases t with
  | deposit c' tx a =>
      cases hg : alistGet l c' with
      | none =>
          have hkeys : ledgerClients (process_transaction l (Transaction.deposit c' tx a)).1
              = ledgerClients l ++ [c'] := by
            simp only [process_transaction]
            unfold process_deposit
            simp [hg, ledgerClients]
          rw [hkeys]
          constructor
          · intro h
            rcases List.mem_append.1 h with h | h
            · exact Or.inl h
            · simp at h
              exact Or.inr ⟨tx, a, by rw [h]⟩
          · rintro (h | ⟨tx', a', he⟩)
            · exact List.mem_append_left _ h
            · obtain ⟨rfl, -, -⟩ := Transaction.deposit.inj he
              exact List.mem_append_right _ (by simp)
      | some cs =>
          have hc' : c' ∈ ledgerClients l := List.mem_map_of_mem Prod.fst (alistGet_mem hg)
          have hkeys : ledgerClients (process_transaction l (Transaction.deposit c' tx a)).1
              = ledgerClients l := by
            simp only [process_transaction]
            unfold process_deposit
            by_cases h1 : cs.locked
            · simp [hg, h1]
            · by_cases h2 : (alistGet cs.deposits tx).isSome
              · simp [hg, h1, h2]
              · simp only [hg, h1, h2]
                simp only [Bool.false_eq_true, if_false, if_true]
                exact map_fst_alistSet l c' _
          rw [hkeys]
          constructor
          · exact Or.inl
          · rintro (h | ⟨tx', a', he⟩)
            · exact h
            · obtain ⟨rfl, -, -⟩ := Transaction.deposit.inj he
              exact hc'
  | withdrawal c' a =>
      rw [clients_eq_of_not_deposit l _ (by intro _ _ _ h; cases h)]
      simp
  | dispute c' tx =>
      rw [clients_eq_of_not_deposit l _ (by intro _ _ _ h; cases h)]
      simp
  | resolve c' tx =>
      rw [clients_eq_of_not_deposit l _ (by intro _ _ _ h; cases h)]
      simp
  | chargeback c' tx =>
      rw [clients_eq_of_not_deposit l _ (by intro _ _ _ h; cases h)]
      simp

theorem mem_clients_processAll (txs : List Transaction) (l : Ledger) (c : ClId) :
    c ∈ ledgerClients (processAll txs l) ↔
      c ∈ ledgerClients l ∨ ∃ tx a, Transaction.deposit c tx a ∈ txs := by
  induction txs generalizing l with
  | nil => simp [processAll]
  | cons t rest ih =>
      simp only [processAll]
      rw [ih, mem_clients_step]
      constructor
      · rintro ((h | ⟨tx, a, he⟩) | ⟨tx, a, hm⟩)
        · exact Or.inl h
        · exact Or.inr ⟨tx, a, by rw [he]; exact List.mem_cons_self _ _⟩
        · exact Or.inr ⟨tx, a, List.mem_cons_of_mem t hm⟩
      · rintro (h | ⟨tx, a, hm⟩)
        · exact Or.inl (Or.inl h)
        · rcases List.mem_cons.1 hm with he | hm2
          · exact Or.inl (Or.inr ⟨tx, a, he.symm⟩)
          · exact Or.inr ⟨tx, a, hm2⟩

theorem clientsNodup_step (l : Ledger) (t : Transaction)
    (h : (ledgerClients l).Nodup) : (ledgerClients (process_transaction l t).1).Nodup := by
  rcases process_transaction_shape l t with hs | ⟨cs', hs⟩ | ⟨_, hnone, cs', hs⟩
  · rw [hs]; exact h
  · show ((process_transaction l t).1.map Prod.fst).Nodup
    rw [hs, map_fst_alistSet]
    exact h
  · show ((process_transaction l t).1.map Prod.fst).Nodup
    rw [hs]
    simp only [List.map_append, List.map_cons, List.map_nil]
    have hnotin : Transaction.client t ∉ l.map Prod.fst := alistGet_eq_none_iff.1 hnone
    have h2 : (List.map Prod.fst l).Nodup := h
    simp [List.nodup_append, h2, hnotin]

theorem clientsNodup_processAll (txs : List Transaction) (l : Ledger)
    (h : (ledgerClients l).Nodup) : (ledgerClients (processAll txs l)).Nodup := by
  induction txs generalizing l with
  | nil => exact h
  | cons t rest ih => exact ih _ (clientsNodup_step l t h)

theorem validated_amount_nonneg {r : TransactionRecord} {a : Rat}
    (h : validated_amount r = Except.ok a) : 0 ≤ a := by
  unfold validated_amount at h
  cases hm : r.amount with
  | none => simp [hm] at h
  | some b =>
      by_cases hneg : b < 0
      · simp [hm, hneg] at h
      · simp [hm, hneg] at h
        rw [← h]
        exact not_lt.1 hneg

/-- C1: the claim that every successful transition keeps `available ≥ 0`
is false: deposit 100 (tx 1), withdraw 50, then dispute tx 1 — every step
succeeds, the pre-dispute state has `available = 50 ≥ 0` and `held = 0`,
yet after the dispute `available = -50 < 0`. -/
theorem C1_counterexample :
    (process_deposit [] 1 1 100).2 = Except.ok () ∧
    (process_withdrawal (process_deposit [] 1 1 100).1 1 50).2 = Except.ok () ∧
    alistGet (process_withdrawal (process_deposit [] 1 1 100).1 1 50).1 1
      = some { deposits := [(1, { amount := 100, under_dispute := false })],
               available := 50, held := 0, locked := false } ∧
    (process_dispute (process_withdrawal (process_deposit [] 1 1 100).1 1 50).1 1 1).2
      = Except.ok () ∧
    alistGet (process_dispute (process_withdrawal (process_deposit [] 1 1 100).1 1 50).1 1 1).1 1
      = some { deposits := [(1, { amount := 100, under_dispute := true })],
               available := -50, held := 100, locked := false } := by
  norm_num [process_deposit, process_withdrawal, process_dispute, alistGet, alistSet,
    ClientState.default]

/-- C1 (amended): on any ledger satisfying the reachability invariants
(`held` is the sum of disputed deposit amounts, all stored amounts are
nonnegative) and with all `available` balances nonnegative, a successful
transaction with a nonnegative input amount keeps every `held ≥ 0`; every
operation except Dispute also keeps every `available ≥ 0`. A Dispute may
drive `available` negative when the disputed deposit's funds were already
partially withdrawn — the code accepts this rather than clamping. -/
theorem C1_amended_nonnegativity (l : Ledger) (t : Transaction)
    (hHeld : HeldInv l) (hAmt : AmtInv l)
    (hAv : ∀ p ∈ l, 0 ≤ p.2.available) (ha : t.nonnegAmount)
    (hok : (process_transaction l t).2 = Except.ok ()) :
    (∀ p ∈ (process_transaction l t).1, 0 ≤ p.2.held) ∧
    ((∀ c tx, t ≠ Transaction.dispute c tx) →
      ∀ p ∈ (process_transaction l t).1, 0 ≤ p.2.available) := by
  constructor
  · intro p hp
    have h1 := heldInv_step l t hHeld p hp
    have h2 := amtInv_step l t hAmt ha p hp
    rw [h1]
    exact heldSum_nonneg h2
  · intro hnd
    exact availNonneg_step l t hAmt hAv ha hnd hok

theorem C1_amended_witness :
    (∀ p ∈ (process_transaction [] (Transaction.deposit 1 1 5)).1, 0 ≤ p.2.held) ∧
    (∀ p ∈ (process_transaction [] (Transaction.deposit 1 1 5)).1, 0 ≤ p.2.available) := by
  have h := C1_amended_nonnegativity [] (Transaction.deposit 1 1 5)
    (by intro p hp; cases hp) (by intro p hp; cases hp) (by intro p hp; cases hp)
    (by norm_num [Transaction.nonnegAmount]) rfl
  exact ⟨h.1, h.2 (by intro c tx hcontra; cases hcontra)⟩

/-- C2: the claim that the core itself re-rejects negative amounts is
false: handed a deposit with amount -5 directly, `process_deposit`
succeeds and records `available = -5`. -/
theorem C2_counterexample :
    (process_deposit [] 1 1 (-5)).2 = Except.ok () ∧
    (process_deposit [] 1 1 (-5)).1
      = [(1, { deposits := [(1, { amount := -5, under_dispute := false })],
               available := -5, held := 0, locked := false })] := by
  norm_num [process_deposit, alistGet, ClientState.default]

/-- C2 (amended): negative amounts are rejected once, by the decoder —
`Transaction::try_from` via `validated_amount` — not re-validated by the
core: every `Transaction` the decoder yields carries a nonnegative amount,
and the core relies on that. -/
theorem C2_amended_decoder_validates (r : TransactionRecord) (t : Transaction)
    (h : Transaction.try_from r = Except.ok t) : t.nonnegAmount := by
  cases ht : r.tx_type with
  | deposit =>
      simp only [Transaction.try_from, ht] at h
      cases hv : validated_amount r with
      | error e => simp [hv] at h
      | ok a =>
          simp [hv] at h
          rw [← h]
          simpa [Transaction.nonnegAmount] using validated_amount_nonneg hv
  | withdrawal =>
      simp only [Transaction.try_from, ht] at h
      cases hv : validated_amount r with
      | error e => simp [hv] at h
      | ok a =>
          simp [hv] at h
          rw [← h]
          simpa [Transaction.nonnegAmount] using validated_amount_nonneg hv
  | dispute =>
      simp only [Transaction.try_from, ht] at h
      simp at h
      rw [← h]
      simp [Transaction.nonnegAmount]
  | resolve =>
      simp only [Transaction.try_from, ht] at h
      simp at h
      rw [← h]
      simp [Transaction.nonnegAmount]
  | chargeback =>
      simp only [Transaction.try_from, ht] at h
      simp at h
      rw [← h]
      simp [Transaction.nonnegAmount]

theorem C2_amended_witness :
    Transaction.try_from
        { tx_type := TransactionType.deposit, client := 1, tx := 1, amount := some 5 }
      = Except.ok (Transaction.deposit 1 1 5) ∧
    (Transaction.deposit 1 1 5).nonnegAmount := by
  have he : Transaction.try_from
      { tx_type := TransactionType.deposit, client := 1, tx := 1, amount := some 5 }
      = Except.ok (Transaction.deposit 1 1 5) := by
    norm_num [Transaction.try_from, validated_amount]
  exact ⟨he, C2_amended_decoder_validates _ _ he⟩

/-- C3: a rejected transaction leaves the ledger exactly as it was — no
partial mutation — and re-applying the same rejected transaction from that
state produces the identical (unchanged) outcome both times. -/
theorem C3_rejection_atomic (l : Ledger) (t : Transaction) (e : String)
    (h : (process_transaction l t).2 = Except.error e) :
    (process_transaction l t).1 = l ∧
    process_transaction (process_transaction l t).1 t = process_transaction l t := by
  have h1 := process_transaction_error h
  exact ⟨h1, by rw [h1]⟩

theorem C3_witness :
    (process_transaction [] (Transaction.withdrawal 1 5)).2
      = Except.error "withdrawal for non existing account" ∧
    (process_transaction [] (Transaction.withdrawal 1 5)).1 = [] :=
  ⟨rfl, (C3_rejection_atomic [] (Transaction.withdrawal 1 5)
      "withdrawal for non existing account" rfl).1⟩

/-- C4: each account's `held` equals the sum of the amounts of exactly its
deposits whose `under_dispute` flag is true; all five operations preserve
this predicate, so it holds in every state reachable from the empty
ledger. -/
theorem C4_held_is_disputed_sum :
    (∀ (l : Ledger) (t : Transaction), HeldInv l → HeldInv (process_transaction l t).1) ∧
    ∀ txs : List Transaction, HeldInv (processAll txs []) :=
  ⟨heldInv_step,
   fun txs => heldInv_processAll txs [] (fun p hp => absurd hp (List.not_mem_nil p))⟩

theorem C4_witness :
    HeldInv [(1, { deposits := [(7, { amount := 5, under_dispute := true })],
                   available := 0, held := 5, locked := false })] ∧
    HeldInv (process_transaction
      [(1, { deposits := [(7, { amount := 5, under_dispute := true })],
             available := 0, held := 5, locked := false })]
      (Transaction.resolve 1 7)).1 := by
  have hinv : HeldInv
      [(1, { deposits := [(7, { amount := 5, under_dispute := true })],
             available := 0, held := 5, locked := false })] := by
    intro p hp
    simp at hp
    rw [hp]
    norm_num [heldSum]
  exact ⟨hinv, C4_held_is_disputed_sum.1 _ (Transaction.resolve 1 7) hinv⟩

/-- C5: a locked account is terminal for mutation — its whole state
(balances, lock flag and stored deposits) survives any further sequence of
transactions unchanged, and any single transaction addressed to that
client is rejected with the ledger left untouched. -/
theorem C5_locked_terminal (l : Ledger) (c : ClId) (cs : ClientState)
    (hc : alistGet l c = some cs) (hlock : cs.locked = true) :
    (∀ txs : List Transaction, alistGet (processAll txs l) c = some cs) ∧
    (∀ t : Transaction, Transaction.client t = c →
      ∃ e, process_transaction l t = (l, Except.error e)) :=
  ⟨fun txs => locked_client_processAll txs l c cs hc hlock,
   fun t ht => process_locked l t cs (by rw [ht]; exact hc) hlock⟩

theorem C5_witness :
    alistGet (processAll [Transaction.deposit 1 2 5, Transaction.withdrawal 1 1]
        [(1, { deposits := [], available := 3, held := 0, locked := true })]) 1
      = some { deposits := [], available := 3, held := 0, locked := true } :=
  (C5_locked_terminal [(1, { deposits := [], available := 3, held := 0, locked := true })]
      1 { deposits := [], available := 3, held := 0, locked := true } rfl rfl).1
    [Transaction.deposit 1 2 5, Transaction.withdrawal 1 1]

/-- C6: for an unlocked account holding deposit `tx` not under dispute,
Dispute then Resolve of that deposit both succeed and return the ledger to
exactly its original state — balances, lock flag and the deposit map with
its `under_dispute` flags included. -/
theorem C6_dispute_resolve_roundtrip (l : Ledger) (c : ClId) (cs : ClientState)
    (tx : TxId) (d : StoredDeposit)
    (hc : alistGet l c = some cs) (hlock : cs.locked = false)
    (hd : alistGet cs.deposits tx = some d) (hdisp : d.under_dispute = false) :
    (process_dispute l c tx).2 = Except.ok () ∧
    (process_resolve (process_dispute l c tx).1 c tx).2 = Except.ok () ∧
    (process_resolve (process_dispute l c tx).1 c tx).1 = l := by
  have hdd : ({ amount := d.amount, under_dispute := false } : StoredDeposit) = d := by
    obtain ⟨da, du⟩ := d
    simp only at hdisp
    simp [hdisp]
  have h_dis : process_dispute l c tx
      = (alistSet l c
          { cs with
              deposits := alistSet cs.deposits tx { d with under_dispute := true },
              held := cs.held + d.amount,
              available := cs.available - d.amount }, Except.ok ()) := by
    unfold process_dispute
    simp [hc, hlock, hd, hdisp]
  have hc1 := alistGet_set_self
    { cs with
        deposits := alistSet cs.deposits tx { d with under_dispute := true },
        held := cs.held + d.amount,
        available := cs.available - d.amount } hc
  have hd1 := alistGet_set_self { d with under_dispute := true } hd
  have h_res : process_resolve
      (alistSet l c
        { cs with
            deposits := alistSet cs.deposits tx { d with under_dispute := true },
            held := cs.held + d.amount,
            available := cs.available - d.amount }) c tx = (l, Except.ok ()) := by
    unfold process_resolve
    rw [hc1]
    simp only [hlock, hd1]
    simp [alistSet_set, hdd, alistSet_get_self hd, alistSet_get_self hc]
    rw [← hlock]
    exact alistSet_get_self hc
  refine ⟨by rw [h_dis], ?_, ?_⟩
  · rw [h_dis]
    exact congrArg Prod.snd h_res
  · rw [h_dis]
    exact congrArg Prod.fst h_res

theorem C6_witness :
    (process_resolve (process_dispute
        [(1, { deposits := [(2, { amount := 7, under_dispute := false })],
               available := 7, held := 0, locked := false })] 1 2).1 1 2).1
      = [(1, { deposits := [(2, { amount := 7, under_dispute := false })],
               available := 7, held := 0, locked := false })] :=
  (C6_dispute_resolve_roundtrip
      [(1, { deposits := [(2, { amount := 7, under_dispute := false })],
             available := 7, held := 0, locked := false })] 1
      { deposits := [(2, { amount := 7, under_dispute := false })],
        available := 7, held := 0, locked := false } 2
      { amount := 7, under_dispute := false } rfl rfl rfl rfl).2.2

/-- C7: for an unlocked account holding deposit `tx` under dispute,
Chargeback succeeds and its sole effects are: the deposit's dispute flag is
cleared, `held` drops by exactly that deposit's stored amount, and the
account is locked; `available` is untouched, so `total = available + held`
drops by the deposit amount and the funds are never returned. -/
theorem C7_chargeback_effect (l : Ledger) (c : ClId) (cs : ClientState)
    (tx : TxId) (d : StoredDeposit)
    (hc : alistGet l c = some cs) (hlock : cs.locked = false)
    (hd : alistGet cs.deposits tx = some d) (hdisp : d.under_dispute = true) :
    process_chargeback l c tx
      = (alistSet l c
          { cs with
              deposits := alistSet cs.deposits tx { d with under_dispute := false },
              held := cs.held - d.amount,
              locked := true }, Except.ok ()) ∧
    alistGet (process_chargeback l c tx).1 c
      = some { cs with
          deposits := alistSet cs.deposits tx { d with under_dispute := false },
          held := cs.held - d.amount,
          locked := true } := by
  have heq : process_chargeback l c tx
      = (alistSet l c
          { cs with
              deposits := alistSet cs.deposits tx { d with under_dispute := false },
              held := cs.held - d.amount,
              locked := true }, Except.ok ()) := by
    unfold process_chargeback
    simp [hc, hlock, hd, hdisp]
  refine ⟨heq, ?_⟩
  rw [heq]
  exact alistGet_set_self _ hc

theorem C7_witness :
    process_chargeback
        [(1, { deposits := [(2, { amount := 7, under_dispute := true })],
               available := 4, held := 7, locked := false })] 1 2
      = ([(1, { deposits := [(2, { amount := 7, under_dispute := false })],
                available := 4, held := 0, locked := true })], Except.ok ()) := by
  have h := (C7_chargeback_effect
      [(1, { deposits := [(2, { amount := 7, under_dispute := true })],
             available := 4, held := 7, locked := false })] 1
      { deposits := [(2, { amount := 7, under_dispute := true })],
        available := 4, held := 7, locked := false } 2
      { amount := 7, under_dispute := true } rfl rfl rfl rfl).1
  rw [h]
  norm_num [alistSet]

/-- C8: for a nonnegative withdrawal amount, the withdrawal is rejected
exactly when the client has no account, the account is locked, or
`available < amount`, in every case leaving the ledger untouched;
otherwise it succeeds and the sole effect is `available -= amount` (a
withdrawal of the whole balance included). -/
theorem C8_withdrawal_spec (l : Ledger) (c : ClId) (a : Rat) (ha : 0 ≤ a) :
    ((∃ e, (process_withdrawal l c a).2 = Except.error e) ↔
      alistGet l c = none ∨
        ∃ cs, alistGet l c = some cs ∧ (cs.locked = true ∨ cs.available < a)) ∧
    ((∃ e, (process_withdrawal l c a).2 = Except.error e) →
      (process_withdrawal l c a).1 = l) ∧
    (∀ cs, alistGet l c = some cs → cs.locked = false → a ≤ cs.available →
      process_withdrawal l c a
        = (alistSet l c { cs with available := cs.available - a }, Except.ok ())) := by
  refine ⟨?_, ?_, ?_⟩
  · constructor
    · rintro ⟨e, he⟩
      unfold process_withdrawal at he
      cases hg : alistGet l c with
      | none => exact Or.inl rfl
      | some cs =>
          refine Or.inr ⟨cs, rfl, ?_⟩
          by_cases h1 : cs.locked
          · exact Or.inl h1
          · by_cases h2 : cs.available < a
            · exact Or.inr h2
            · rw [hg] at he
              simp [h1, h2] at he
    · rintro (hg | ⟨cs, hg, hrej⟩)
      · exact ⟨"withdrawal for non existing account",
          by unfold process_withdrawal; simp [hg]⟩
      · rcases hrej with h1 | h2
        · exact ⟨"withdrawal for locked account",
            by unfold process_withdrawal; simp [hg, h1]⟩
        · by_cases h1 : cs.locked
          · exact ⟨"withdrawal for locked account",
              by unfold process_withdrawal; simp [hg, h1]⟩
          · exact ⟨"insufficient funds",
              by unfold process_withdrawal; simp [hg, h1, h2]⟩
  · rintro ⟨e, he⟩
    exact process_withdrawal_error he
  · intro cs hg h1 h2
    unfold process_withdrawal
    simp [hg, h1, not_lt.2 h2]

theorem C8_witness :
    process_withdrawal
        [(1, { deposits := [], available := 5, held := 0, locked := false })] 1 5
      = ([(1, { deposits := [], available := 0, held := 0, locked := false })],
         Except.ok ()) := by
  have h := (C8_withdrawal_spec
      [(1, { deposits := [], available := 5, held := 0, locked := false })] 1 5
      (by norm_num)).2.2
    { deposits := [], available := 5, held := 0, locked := false } rfl rfl (by norm_num)
  rw [h]
  norm_num [alistSet]

theorem process_unknown_client (l : Ledger) (t : Transaction)
    (hnd : ∀ c tx a, t ≠ Transaction.deposit c tx a)
    (hg : alistGet l (Transaction.client t) = none) :
    ∃ e, process_transaction l t = (l, Except.error e) := by
  cases t with
  | deposit c tx a => exact absurd rfl (hnd c tx a)
  | withdrawal c a =>
      simp only [Transaction.client] at hg
      exact ⟨"withdrawal for non existing account", by
        simp only [process_transaction]
        unfold process_withdrawal
        simp [hg]⟩
  | dispute c tx =>
      simp only [Transaction.client] at hg
      exact ⟨"dispute for non existing account", by
        simp only [process_transaction]
        unfold process_dispute
        simp [hg]⟩
  | resolve c tx =>
      simp only [Transaction.client] at hg
      exact ⟨"resolve for non existing account", by
        simp only [process_transaction]
        unfold process_resolve
        simp [hg]⟩
  | chargeback c tx =>
      simp only [Transaction.client] at hg
      exact ⟨"chargeback for non existing account", by
        simp only [process_transaction]
        unfold process_chargeback
        simp [hg]⟩

/-- C9: accounts come into existence exactly through deposits: a
non-deposit transaction never changes the set of accounts; a withdrawal,
dispute, resolve or chargeback referencing a client with no account is
rejected with the ledger left untouched; starting from the empty ledger, a
client has an account (one output row) iff the input contained a deposit
for that client (whose first occurrence necessarily succeeded and created
the account); and the account list never holds a client twice, so the
output has exactly one row per such client. -/
theorem C9_account_creation :
    (∀ (l : Ledger) (t : Transaction), (∀ c tx a, t ≠ Transaction.deposit c tx a) →
      ledgerClients (process_transaction l t).1 = ledgerClients l) ∧
    (∀ (l : Ledger) (t : Transaction), (∀ c tx a, t ≠ Transaction.deposit c tx a) →
      alistGet l (Transaction.client t) = none →
      ∃ e, process_transaction l t = (l, Except.error e)) ∧
    (∀ (txs : List Transaction) (c : ClId),
      c ∈ ledgerClients (processAll txs []) ↔ ∃ tx a, Transaction.deposit c tx a ∈ txs) ∧
    (∀ txs : List Transaction, (ledgerClients (processAll txs [])).Nodup) :=
  ⟨clients_eq_of_not_deposit,
   process_unknown_client,
   fun txs c => by
     rw [mem_clients_processAll]
     simp [ledgerClients],
   fun txs => clientsNodup_processAll txs [] (by simp [ledgerClients])⟩

theorem C9_witness :
    ledgerClients (process_transaction [] (Transaction.dispute 1 1)).1
      = ledgerClients ([] : Ledger) ∧
    (∃ e, process_transaction [] (Transaction.resolve 3 4) = ([], Except.error e)) ∧
    (1 ∈ ledgerClients (processAll [Transaction.deposit 1 1 5] []) ↔
      ∃ tx a, Transaction.deposit 1 tx a ∈ [Transaction.deposit 1 1 5]) ∧
    (ledgerClients (processAll [Transaction.deposit 1 1 5] [])).Nodup :=
  ⟨C9_account_creation.1 [] (Transaction.dispute 1 1) (by intro _ _ _ h; cases h),
   C9_account_creation.2.1 [] (Transaction.resolve 3 4) (by intro _ _ _ h; cases h) rfl,
   C9_account_creation.2.2.1 [Transaction.deposit 1 1 5] 1,
   C9_account_creation.2.2.2 [Transaction.deposit 1 1 5]⟩

/-- C10: the duplicate-tx-id check consults only the depositing client's
own deposit map: a deposit for client B reusing a tx id stored by a
different client A succeeds (provided B's own account does not block it),
and afterwards A's stored deposit and B's new one coexist under the same
tx id. -/
theorem C10_txid_per_account (l : Ledger) (ca cb : ClId) (tx : TxId)
    (csa : ClientState) (da : StoredDeposit) (b : Rat)
    (hne : cb ≠ ca)
    (ha : alistGet l ca = some csa) (hda : alistGet csa.deposits tx = some da)
    (hb : ∀ csb, alistGet l cb = some csb →
      csb.locked = false ∧ alistGet csb.deposits tx = none) :
    (process_deposit l cb tx b).2 = Except.ok () ∧
    alistGet (process_deposit l cb tx b).1 ca = some csa ∧
    ∃ csb2, alistGet (process_deposit l cb tx b).1 cb = some csb2 ∧
      alistGet csb2.deposits tx = some { amount := b, under_dispute := false } := by
  cases hg : alistGet l cb with
  | none =>
      have heq : process_deposit l cb tx b
          = (l ++ [(cb, { ClientState.default with
              available := ClientState.default.available + b,
              deposits := ClientState.default.deposits
                ++ [(tx, { amount := b, under_dispute := false })] })], Except.ok ()) := by
        unfold process_deposit
        simp [hg]
      refine ⟨by rw [heq], ?_, ?_⟩
      · rw [heq]
        exact alistGet_append_left ha
      · refine ⟨{ ClientState.default with
            available := ClientState.default.available + b,
            deposits := ClientState.default.deposits
              ++ [(tx, { amount := b, under_dispute := false })] }, ?_, ?_⟩
        · rw [heq]
          show alistGet (l ++ [(cb, _)]) cb = _
          rw [alistGet_append_of_none hg]
          simp [alistGet]
        · simp [ClientState.default, alistGet]
  | some csb =>
      obtain ⟨hbl, hbd⟩ := hb csb hg
      have heq : process_deposit l cb tx b
          = (alistSet l cb
              { csb with
                  available := csb.available + b,
                  deposits := csb.deposits
                    ++ [(tx, { amount := b, under_dispute := false })] }, Except.ok ()) := by
        unfold process_deposit
        simp [hg, hbl, hbd]
      refine ⟨by rw [heq], ?_, ?_⟩
      · rw [heq]
        show alistGet (alistSet l cb _) ca = _
        rw [alistGet_set_ne _ (Ne.symm hne)]
        exact ha
      · refine ⟨{ csb with
            available := csb.available + b,
            deposits := csb.deposits
              ++ [(tx, { amount := b, under_dispute := false })] }, ?_, ?_⟩
        · rw [heq]
          exact alistGet_set_self _ hg
        · show alistGet (csb.deposits ++ [(tx, _)]) tx = _
          rw [alistGet_append_of_none hbd]
          simp [alistGet]

theorem C10_witness :
    (process_deposit [(1, { deposits := [(9, { amount := 3, under_dispute := false })], available := 3, held := 0, locked := false })] 2 9 4).2 = Except.ok () ∧
    alistGet (process_deposit [(1, { deposits := [(9, { amount := 3, under_dispute := false })], available := 3, held := 0, locked := false })] 2 9 4).1 1
      = some { deposits := [(9, { amount := 3, under_dispute := false })], available := 3, held := 0, locked := false } ∧
    ∃ csb2, alistGet (process_deposit [(1, { deposits := [(9, { amount := 3, under_dispute := false })], available := 3, held := 0, locked := false })] 2 9 4).1 2 = some csb2 ∧
      alistGet csb2.deposits 9 = some { amount := 4, under_dispute := false } :=
  C10_txid_per_account
    [(1, { deposits := [(9, { amount := 3, under_dispute := false })], available := 3, held := 0, locked := false })]
    1 2 9
    { deposits := [(9, { amount := 3, under_dispute := false })], available := 3, held := 0, locked := false }
    { amount := 3, under_dispute := false } 4
    (by norm_num) rfl rfl
    (by intro csb h; simp [alistGet] at h)
